import Mathlib

/-!
Verification of the core of `json-replace-exponentials` (`index.js`).

The program scans a JSON document with the sticky/global regular expression

  ((?:STRING|[^"])*?)(NUMEXP)

where `STRING` is the RFC 7158 JSON string grammar and `NUMEXP` is
`(-?)([0-9]+)(?:\.([0-9]+))?[eE]([+-]?[0-9]+)`, and replaces every match
`prefix ++ numExp` by `prefix ++ replacement`.  Both the lazy prefix
alternation (the branches are disjoint on their first character) and the
number pattern (greedy digit runs can never be usefully backtracked, since
shrinking a digit run leaves a digit in front of a position that must hold
`.`, `e` or `E`) are deterministic, so the regular expression is embedded
below as a deterministic recursive matcher over `List Char`.
-/

/-- Character class `[0-9]` of the patterns. -/
def isDigit (c : Char) : Bool :=
  '0' ≤ c && c ≤ '9'

/-- Character class `[0-9a-fA-F]` used by the `\uXXXX` escape of
`stringPattern`. -/
def isHexDigit (c : Char) : Bool :=
  isDigit c || ('a' ≤ c && c ≤ 'f') || ('A' ≤ c && c ≤ 'F')

/-- Character class `["\\/bfnrt]` of the one-character escapes of
`stringPattern`. -/
def isEscapeChar (c : Char) : Bool :=
  c = '"' || c = '\\' || c = '/' || c = 'b' || c = 'f' || c = 'n' || c = 'r' || c = 't'

/-- Character class `[^\x00-\x1F\\"]` of unescaped string characters in
`stringPattern`. -/
def isStringChar (c : Char) : Bool :=
  0x20 ≤ c.toNat && c ≠ '\\' && c ≠ '"'

/-- Not the decimal point. -/
def notDot (c : Char) : Bool :=
  c ≠ '.'

/-- Removal of one leading `-`, if present. -/
def dropSignChar (l : List Char) : List Char :=
  match l with
  | '-' :: r => r
  | _ => l

/-- The decomposed capture groups of one match of `numberExpPattern`
(`(-?)([0-9]+)(?:\.([0-9]+))?[eE]([+-]?[0-9]+)`), together with the matched
exponent marker character (`e` or `E`). -/
structure NumExp where
  signPart : List Char
  intPart : List Char
  fracPart : Option (List Char)
  eChar : Char
  expText : List Char
deriving DecidableEq, Repr

/-- Rendering of the optional fractional capture back to its matched text. -/
def fracText : Option (List Char) → List Char
  | some f => '.' :: f
  | none => []

/-- The full text matched by `numberExpPattern` (capture group 2 of
`jsonWithNumberExpRE`, the argument handed to a custom replacer). -/
def numExpText (ne : NumExp) : List Char :=
  ne.signPart ++ ne.intPart ++ fracText ne.fracPart ++ ne.eChar :: ne.expText

/-- Matcher for the part of `stringPattern` after the opening quote:
`(?:[^\x00-\x1F\\"]|\\(?:["\\/bfnrt]|u[0-9a-fA-F]{4}))*"`.  Returns the
consumed characters (closing quote included) and the remaining input. -/
def matchStringRest : List Char → Option (List Char × List Char)
  | [] => none
  | c :: rest =>
    if c = '"' then some (['"'], rest)
    else if c = '\\' then
      match rest with
      | [] => none
      | e :: rest2 =>
        if e = 'u' then
          match rest2 with
          | h1 :: h2 :: h3 :: h4 :: rest3 =>
            if isHexDigit h1 && isHexDigit h2 && isHexDigit h3 && isHexDigit h4 then
              match matchStringRest rest3 with
              | some (s, r) => some (c :: e :: h1 :: h2 :: h3 :: h4 :: s, r)
              | none => none
            else none
          | _ => none
        else if isEscapeChar e then
          match matchStringRest rest2 with
          | some (s, r) => some (c :: e :: s, r)
          | none => none
        else none
    else if isStringChar c then
      match matchStringRest rest with
      | some (s, r) => some (c :: s, r)
      | none => none
    else none

/-- The optional sign `(-?)` at the start of `numberExpPattern`. -/
def matchSignPart (l : List Char) : List Char × List Char :=
  match l with
  | '-' :: r => (['-'], r)
  | _ => ([], l)

/-- The optional fraction `(?:\.([0-9]+))?` of `numberExpPattern`.  When a
`.` is present but not followed by a digit, the whole number pattern fails:
the skipped optional group leaves `[eE]` facing the `.`. -/
def matchFracPart (l2 : List Char) : Option (Option (List Char) × List Char) :=
  match l2 with
  | '.' :: r =>
    if (r.takeWhile isDigit).isEmpty then none
    else some (some (r.takeWhile isDigit), r.dropWhile isDigit)
  | _ => some (none, l2)

/-- The optional exponent sign `[+-]?` of `numberExpPattern`. -/
def matchExpSign (l4 : List Char) : List Char × List Char :=
  match l4 with
  | '+' :: r => (['+'], r)
  | '-' :: r => (['-'], r)
  | _ => ([], l4)

/-- Matcher for `numberExpPattern` at the head of the input.  Greedy digit
runs never need to be backtracked (shrinking one puts a digit where `.`,
`e`/`E` or the end of the pattern's digit run is required), so maximal-munch
is exact. -/
def matchNumExp (l : List Char) : Option (NumExp × List Char) :=
  let sign := matchSignPart l
  let ints := sign.2.takeWhile isDigit
  let l2 := sign.2.dropWhile isDigit
  if ints.isEmpty then none
  else
    match matchFracPart l2 with
    | none => none
    | some (frac, l3) =>
      match l3 with
      | e :: l4 =>
        if e = 'e' ∨ e = 'E' then
          let esign := matchExpSign l4
          if (esign.2.takeWhile isDigit).isEmpty then none
          else
            some ({ signPart := sign.1, intPart := ints, fracPart := frac,
                    eChar := e, expText := esign.1 ++ esign.2.takeWhile isDigit },
                  esign.2.dropWhile isDigit)
        else none
      | [] => none

/-- One sticky match attempt of `jsonWithNumberExpRE` starting at the head of
`l`: the lazy prefix `(?:STRING|[^"])*?` first tries `numberExpPattern` at the
current position, and otherwise consumes one unit (a complete string literal
when the next character is `"`, else one non-quote character) and retries.
Returns the prefix (capture group 1), the number parts, and the input
remaining after the number.  `fuel` only drives the recursion; the wrapper
`findMatch` supplies enough for the whole input. -/
def findMatchStep (rec : List Char → Option (List Char × NumExp × List Char))
    (l : List Char) : Option (List Char × NumExp × List Char) :=
  match matchNumExp l with
  | some (ne, rest) => some ([], ne, rest)
  | none =>
    match l with
    | [] => none
    | c :: rest =>
      if c = '"' then
        match matchStringRest rest with
        | some (s, r) =>
          match rec r with
          | some (p, ne, rest2) => some (c :: s ++ p, ne, rest2)
          | none => none
        | none => none
      else
        match rec rest with
        | some (p, ne, r) => some (c :: p, ne, r)
        | none => none

/-- The fuel recursion for `findMatchStep`. -/
def findMatchF : Nat → List Char → Option (List Char × NumExp × List Char)
  | 0, _ => none
  | fuel + 1, l => findMatchStep (findMatchF fuel) l

/-- One sticky match attempt of `jsonWithNumberExpRE` at the head of `l`. -/
def findMatch (l : List Char) : Option (List Char × NumExp × List Char) :=
  findMatchF (l.length + 1) l

/-- The repeated-match loop of `String.prototype.replaceAll` with the
global+sticky `jsonWithNumberExpRE`: each successful match advances the
cursor to the end of the match, and the first failed attempt ends the scan,
leaving the unmatched suffix.  Returns the list of (prefix, number) matches
in left-to-right order and the trailing suffix. -/
def scanStep (rec : List Char → List (List Char × NumExp) × List Char)
    (l : List Char) : List (List Char × NumExp) × List Char :=
  match findMatch l with
  | none => ([], l)
  | some (p, ne, rest) =>
    let t := rec rest
    ((p, ne) :: t.1, t.2)

/-- The fuel recursion for `scanStep`. -/
def scanFromF : Nat → List Char → List (List Char × NumExp) × List Char
  | 0, l => ([], l)
  | fuel + 1, l => scanStep (scanFromF fuel) l

/-- The full scan of a document by `jsonWithNumberExpRE`. -/
def scanFrom (l : List Char) : List (List Char × NumExp) × List Char :=
  scanFromF (l.length + 1) l

/-- `unsigned.replace(/^0+(?=[0-9])/, '')` of `exponentialPartsToFixed`:
remove the longest run of leading zeros that is still followed by a digit
(so a lone `0` before a non-digit survives). -/
def stripLeadingZeros (s : List Char) : List Char :=
  let zeros := s.takeWhile (fun c => c = '0')
  let t := s.dropWhile (fun c => c = '0')
  if zeros.isEmpty then s
  else
    match t with
    | c :: _ => if isDigit c then t else '0' :: t
    | [] => '0' :: t

/-- `exponentialPartsToFixed(signPart, intPart, fracPart, exponent)` of
`index.js`: decimal-point shifting over the digit strings.  JS `slice` /
`repeat` on the in-range exponents become `take` / `drop` / `replicate`;
in particular the negative branch keeps the source's
`intPart.slice(0, exponent)` / `intPart.slice(exponent)` split. -/
def exponentialPartsToFixed (signPart intPart fracPart : List Char)
    (exponent : Int) : List Char :=
  if 0 ≤ exponent then
    let e := exponent.toNat
    let unsigned :=
      if fracPart.length ≤ e then
        intPart ++ fracPart ++ List.replicate (e - fracPart.length) '0'
      else
        intPart ++ fracPart.take e ++ '.' :: fracPart.drop e
    signPart ++ stripLeadingZeros unsigned
  else
    let e := (-exponent).toNat
    if e < intPart.length then
      signPart ++ intPart.take e ++ '.' :: intPart.drop e ++ fracPart
    else
      signPart ++ '0' :: '.' :: List.replicate (e - intPart.length) '0' ++ intPart ++ fracPart

/-- `Number(expPart)` for the exponent capture `([+-]?[0-9]+)`.  For the
magnitudes at which the conversion runs (`|exp| <= 1000`) the JS float is
exact, and for larger magnitudes only the comparisons with 1000 matter, which
agree with the exact integer value; so the exponent is embedded as `Int`. -/
def digitsToNat (l : List Char) : Nat :=
  l.foldl (fun n c => 10 * n + (c.toNat - '0'.toNat)) 0

/-- Integer value of the exponent capture (optional sign, then digits). -/
def expVal : List Char → Int
  | '-' :: ds => -(digitsToNat ds : Int)
  | '+' :: ds => (digitsToNat ds : Int)
  | ds => (digitsToNat ds : Int)

/-- Error kinds thrown by `jsonReplaceExponentials`. -/
inductive JRErr
  | typeError
  | rangeError
deriving DecidableEq, Repr

/-- `exponentialToFixedReplacer` of `index.js`: reject exponents beyond
±1000, else emit prefix followed by the fixed-point conversion. -/
def exponentialToFixedReplacer (pre : List Char) (ne : NumExp) :
    Except JRErr (List Char) :=
  let exp := expVal ne.expText
  if 1000 < exp ∨ exp < -1000 then Except.error JRErr.rangeError
  else Except.ok (pre ++ exponentialPartsToFixed ne.signPart ne.intPart (ne.fracPart.getD []) exp)

/-- Assembly of the `replaceAll` result: each match contributes the value of
its replacer call (which already carries the prefix), and the suffix after
the last match is appended; a thrown error propagates. -/
def replaceLoop (repl : List Char → NumExp → Except JRErr (List Char)) :
    List (List Char × NumExp) → List Char → Except JRErr (List Char)
  | [], suffix => Except.ok suffix
  | (p, ne) :: ms, suffix =>
    match repl p ne with
    | Except.error e => Except.error e
    | Except.ok r =>
      match replaceLoop repl ms suffix with
      | Except.error e => Except.error e
      | Except.ok rest => Except.ok (r ++ rest)

/-- The dynamically-typed arguments of the JS entry point, as far as its
`typeof` checks distinguish them: a string, a function, `undefined`, or any
other value. -/
inductive JSVal
  | str : List Char → JSVal
  | fn : (List Char → List Char) → JSVal
  | undefined : JSVal
  | other : JSVal

/-- `true` exactly when `typeof v === 'string'`. -/
def JSVal.isStringV : JSVal → Bool
  | JSVal.str _ => true
  | _ => false

/-- `true` exactly when `typeof v === 'function'`. -/
def JSVal.isFunctionV : JSVal → Bool
  | JSVal.fn _ => true
  | _ => false

/-- `true` exactly when `v === undefined`. -/
def JSVal.isUndefinedV : JSVal → Bool
  | JSVal.undefined => true
  | _ => false

/-- `jsonReplaceExponentials(json, replacer)` of `index.js`: the `typeof`
checks, the choice of `wrapReplacer` (line 148 wraps a custom replacer as
`(match, prefix, numExp) => prefix + replacer(numExp)`), and the
`replaceAll` scan. -/
def jsonReplaceExponentials (json replacer : JSVal) : Except JRErr (List Char) :=
  match json with
  | JSVal.str s =>
    match replacer with
    | JSVal.undefined =>
      replaceLoop exponentialToFixedReplacer (scanFrom s).1 (scanFrom s).2
    | JSVal.fn f =>
      replaceLoop (fun pre ne => Except.ok (pre ++ f (numExpText ne))) (scanFrom s).1 (scanFrom s).2
    | _ => Except.error JRErr.typeError
  | _ => Except.error JRErr.typeError

/-- The shared mutable state of the process-wide compiled pattern object
`jsonWithNumberExpRE`: its scan cursor. -/
structure RegExpState where
  lastIndex : Nat
deriving DecidableEq, Repr

/-- The `replaceAll` call on the shared sticky pattern, made explicit in the
cursor state: matching proceeds from the incoming cursor position (characters
before it are left as they are), and the final failed sticky attempt leaves
the cursor at 0. -/
def replaceAllStickyFrom (st : RegExpState) (s : List Char)
    (repl : List Char → NumExp → Except JRErr (List Char)) :
    Except JRErr (List Char) × RegExpState :=
  let t := scanFrom (s.drop st.lastIndex)
  (match replaceLoop repl t.1 t.2 with
   | Except.error e => Except.error e
   | Except.ok out => Except.ok (s.take st.lastIndex ++ out),
   { lastIndex := 0 })

/-- `jsonReplaceExponentials` with the shared pattern's cursor state passed
explicitly: line 153 (`jsonWithNumberExpRE.lastIndex = 0`) rewinds the cursor
before the scan, so the scan always starts from position 0 whatever state a
previous call left behind; the `typeof` failures occur before that line and
leave the cursor untouched. -/
def jsonReplaceExponentialsSt (st : RegExpState) (json replacer : JSVal) :
    Except JRErr (List Char) × RegExpState :=
  match json with
  | JSVal.str s =>
    match replacer with
    | JSVal.undefined =>
      replaceAllStickyFrom { lastIndex := 0 } s exponentialToFixedReplacer
    | JSVal.fn f =>
      replaceAllStickyFrom { lastIndex := 0 } s
        (fun pre ne => Except.ok (pre ++ f (numExpText ne)))
    | _ => (Except.error JRErr.typeError, st)
  | _ => (Except.error JRErr.typeError, st)

/-!
Cost model of the backtracking scan.  The engine realizes the lazy prefix
`(?:STRING|[^"])*?` by attempting `numberExpPattern` at each successive
position; an attempt at a position whose (possibly sign-prefixed) run of
digits has length `d` reads those `d` digits greedily (and, when no
exponent marker follows, backtracks through them) before failing, so it
costs at least `d + 1` character reads.  `findMatchSteps` sums that lower
bound over the positions the scan visits.
-/

/-- Lower bound on the characters read by one attempt of
`numberExpPattern`: the greedy `[0-9]+` scan after the optional sign, plus
one. -/
def numExpAttemptSteps (l : List Char) : Nat :=
  ((dropSignChar l).takeWhile isDigit).length + 1

/-- Total modelled cost of one sticky match of `jsonWithNumberExpRE`:
the sum of the attempt costs at every position the lazy prefix tries. -/
def findMatchStepsStep (rec : List Char → Nat) (l : List Char) : Nat :=
  numExpAttemptSteps l +
    match matchNumExp l with
    | some _ => 0
    | none =>
      match l with
      | [] => 0
      | c :: rest =>
        if c = '"' then
          match matchStringRest rest with
          | some (_, r) => rec r
          | none => 0
        else rec rest

/-- The fuel recursion for `findMatchStepsStep`. -/
def findMatchStepsF : Nat → List Char → Nat
  | 0, _ => 0
  | fuel + 1, l => findMatchStepsStep (findMatchStepsF fuel) l

/-- Modelled cost of one sticky match attempt over the whole input. -/
def findMatchSteps (l : List Char) : Nat :=
  findMatchStepsF (l.length + 1) l

/-!
Exact decimal value semantics, for stating value preservation.
-/

/-- Exact rational value of a fixed-point decimal string
(optional `-`, digits, optional `.` and digits). -/
def fixedValue (l : List Char) : ℚ :=
  (if l.head? = some '-' then (-1 : ℚ) else 1) *
    ((digitsToNat ((dropSignChar l).takeWhile notDot) : ℚ) +
      (digitsToNat (((dropSignChar l).dropWhile notDot).drop 1) : ℚ)
        / 10 ^ (((dropSignChar l).dropWhile notDot).drop 1).length)

/-- Exact rational value denoted by a matched exponential-notation token. -/
def numExpValue (ne : NumExp) : ℚ :=
  (if ne.signPart = ['-'] then (-1 : ℚ) else 1) *
    ((digitsToNat ne.intPart : ℚ) +
      (digitsToNat (ne.fracPart.getD []) : ℚ) / 10 ^ (ne.fracPart.getD []).length) *
    (10 : ℚ) ^ expVal ne.expText

/-!
Statement vocabulary.
-/

/-- A prefix (capture group 1 of `jsonWithNumberExpRE`) is a concatenation
of units, each either a single non-quote character or a complete well-formed
JSON string literal; in particular a match can never begin inside a string
literal that the prefix has consumed. -/
inductive PrefixUnits : List Char → Prop
  | nil : PrefixUnits []
  | chr : ∀ (c : Char) (rest : List Char),
      c ≠ '"' → PrefixUnits rest → PrefixUnits (c :: rest)
  | lit : ∀ (body rest : List Char),
      matchStringRest body = some (body, []) → PrefixUnits rest →
      PrefixUnits ('"' :: body ++ rest)

/-- Reassembly of a scan: the prefixes, a rendering of each matched number,
and the trailing suffix, in order. -/
def recombine (ms : List (List Char × NumExp)) (g : NumExp → List Char)
    (suf : List Char) : List Char :=
  ms.foldr (fun m acc => m.1 ++ g m.2 ++ acc) suf

/-- The integer portion (after the sign is dropped and up to the first `.`)
of a fixed-point string is non-empty and carries no redundant leading zero:
it is `0` itself or does not start with `0`. -/
def intPortionStripped (l : List Char) : Bool :=
  let ip := (dropSignChar l).takeWhile notDot
  !ip.isEmpty && (ip = ['0'] || ip.head? ≠ some '0')

/-!
Decomposition lemmas: every successful match consumes exactly the text it
reports.
-/

theorem eq_takeWhile_append_iff {p : Char → Bool} {X T : List Char} :
    X = List.takeWhile p X ++ T ↔ List.dropWhile p X = T := by
  constructor
  · intro h
    have h2 := @List.takeWhile_append_dropWhile _ p X
    exact List.append_cancel_left (h2.trans h)
  · intro h
    rw [← h, List.takeWhile_append_dropWhile]

theorem matchStringRest_append_aux : ∀ (n : Nat) (l : List Char), l.length ≤ n →
    ∀ s r, matchStringRest l = some (s, r) → l = s ++ r := by
  intro n
  induction n with
  | zero =>
    intro l hl s r h
    match l, hl with
    | [], _ => simp [matchStringRest] at h
  | succ n ih =>
    intro l hl s r h
    match l with
    | [] => simp [matchStringRest] at h
    | c :: rest =>
      rw [matchStringRest.eq_def] at h
      repeat' split at h
      all_goals (try (cases h))
      all_goals simp_all
      all_goals rename_i heq
      all_goals exact ih _ (by omega) _ _ heq

theorem matchStringRest_append {l s r : List Char}
    (h : matchStringRest l = some (s, r)) : l = s ++ r :=
  matchStringRest_append_aux l.length l le_rfl s r h

theorem matchStringRest_self_aux : ∀ (n : Nat) (l : List Char), l.length ≤ n →
    ∀ s r, matchStringRest l = some (s, r) → matchStringRest s = some (s, []) := by
  intro n
  induction n with
  | zero =>
    intro l hl s r h
    match l, hl with
    | [], _ => simp [matchStringRest] at h
  | succ n ih =>
    intro l hl s r h
    match l with
    | [] => simp [matchStringRest] at h
    | c :: rest =>
      rw [matchStringRest.eq_def] at h
      repeat' split at h
      all_goals (try (cases h))
      all_goals simp_all
      all_goals try (rw [matchStringRest.eq_def]; simp; done)
      all_goals rename_i heq
      all_goals (have hs := ih _ (by omega) _ _ heq;
                 rw [matchStringRest.eq_def]; simp_all)

theorem matchStringRest_self {l s r : List Char}
    (h : matchStringRest l = some (s, r)) : matchStringRest s = some (s, []) :=
  matchStringRest_self_aux l.length l le_rfl s r h

theorem matchSignPart_append (l : List Char) :
    l = (matchSignPart l).1 ++ (matchSignPart l).2 := by
  rw [matchSignPart.eq_def]
  split <;> simp

theorem matchSignPart_cases (l : List Char) :
    (matchSignPart l).1 = [] ∨ (matchSignPart l).1 = ['-'] := by
  rw [matchSignPart.eq_def]
  split <;> simp

theorem matchExpSign_append (l : List Char) :
    l = (matchExpSign l).1 ++ (matchExpSign l).2 := by
  rw [matchExpSign.eq_def]
  split <;> simp

theorem matchFracPart_append {l2 : List Char} {frac : Option (List Char)} {l3 : List Char}
    (h : matchFracPart l2 = some (frac, l3)) : l2 = fracText frac ++ l3 := by
  rw [matchFracPart.eq_def] at h
  split at h
  · split at h
    · cases h
    · cases h
      simp [fracText, eq_takeWhile_append_iff]
  · cases h
    simp [fracText]

theorem matchNumExp_append {l : List Char} {ne : NumExp} {rest : List Char}
    (h : matchNumExp l = some (ne, rest)) : l = numExpText ne ++ rest := by
  rw [matchNumExp.eq_def] at h
  simp only [] at h
  split at h
  · cases h
  · rename_i hne
    split at h
    · cases h
    · rename_i frac l3 hfrac
      split at h
      · rename_i e l4
        split at h
        · rename_i hee
          split at h
          · cases h
          · cases h
            rcases hS : matchSignPart l with ⟨s1, s2⟩
            rcases hE : matchExpSign l4 with ⟨es1, es2⟩
            have h1 := matchSignPart_append l
            have h2 := matchFracPart_append hfrac
            have h4 := matchExpSign_append l4
            simp only [hS, hE] at h1 h2 h4 ⊢
            simp only [numExpText] at h1 h2 h4 ⊢
            have key : s2 = s2.takeWhile isDigit ++
                (fracText frac ++
                 e :: (es1 ++ (es2.takeWhile isDigit ++ es2.dropWhile isDigit))) := by
              rw [eq_takeWhile_append_iff, List.takeWhile_append_dropWhile, ← h4]
              exact h2
            conv_lhs => rw [h1, key]
            simp [List.append_assoc]
        · cases h
      · cases h

theorem matchNumExp_parts {l : List Char} {ne : NumExp} {rest : List Char}
    (h : matchNumExp l = some (ne, rest)) :
    (ne.signPart = [] ∨ ne.signPart = ['-']) ∧
    ne.intPart ≠ [] ∧ (∀ c ∈ ne.intPart, isDigit c = true) ∧
    (∀ c ∈ ne.fracPart.getD [], isDigit c = true) ∧
    ne.expText ≠ [] ∧ (ne.eChar = 'e' ∨ ne.eChar = 'E') := by
  rw [matchNumExp.eq_def] at h
  simp only [] at h
  split at h
  · cases h
  · rename_i hne
    split at h
    · cases h
    · rename_i frac l3 hfrac
      split at h
      · rename_i e l4
        split at h
        · rename_i hee
          split at h
          · cases h
          · rename_i hed
            cases h
            refine ⟨matchSignPart_cases l, ?_, ?_, ?_, ?_, hee⟩
            · simpa [List.isEmpty_iff] using hne
            · intro c hc
              exact List.mem_takeWhile_imp hc
            · intro c hc
              rw [matchFracPart.eq_def] at hfrac
              split at hfrac
              · split at hfrac
                · cases hfrac
                · simp only [Option.some.injEq, Prod.mk.injEq] at hfrac
                  obtain ⟨hf1, hf2⟩ := hfrac
                  subst hf1
                  simp only [Option.getD_some] at hc
                  exact List.mem_takeWhile_imp hc
              · simp only [Option.some.injEq, Prod.mk.injEq] at hfrac
                obtain ⟨hf1, hf2⟩ := hfrac
                subst hf1
                simp at hc
            · simp only [ne_eq, List.append_eq_nil]
              intro hcon
              rw [List.isEmpty_iff] at hed
              exact hed hcon.2
        · cases h
      · cases h

theorem matchNumExp_text_len {l : List Char} {ne : NumExp} {rest : List Char}
    (h : matchNumExp l = some (ne, rest)) : 3 ≤ (numExpText ne).length := by
  obtain ⟨-, hint, -, -, hexp, -⟩ := matchNumExp_parts h
  have h1 : 0 < ne.intPart.length := List.length_pos.mpr hint
  have h2 : 0 < ne.expText.length := List.length_pos.mpr hexp
  simp only [numExpText, List.length_append, List.length_cons]
  omega

theorem matchNumExp_rest_lt {l : List Char} {ne : NumExp} {rest : List Char}
    (h : matchNumExp l = some (ne, rest)) : rest.length + 3 ≤ l.length := by
  have h1 := matchNumExp_append h
  have h2 := matchNumExp_text_len h
  rw [h1]
  simp only [List.length_append]
  omega

theorem findMatchF_spec : ∀ (fuel : Nat) (l p : List Char) (ne : NumExp) (rest : List Char),
    findMatchF fuel l = some (p, ne, rest) →
    l = p ++ numExpText ne ++ rest ∧ PrefixUnits p ∧
    matchNumExp (numExpText ne ++ rest) = some (ne, rest) := by
  intro fuel
  induction fuel with
  | zero =>
    intro l p ne rest h
    simp [findMatchF] at h
  | succ fuel ih =>
    intro l p ne rest h
    simp only [findMatchF] at h
    rw [findMatchStep.eq_def] at h
    split at h
    · rename_i x ne0 rest0 hm
      cases h
      have ha := matchNumExp_append hm
      refine ⟨by simpa using ha, PrefixUnits.nil, ?_⟩
      rw [← ha]
      exact hm
    · rename_i hm
      split at h
      · cases h
      · rename_i c rest0
        split at h
        · rename_i hq
          subst hq
          split at h
          · rename_i s r hs
            split at h
            · rename_i p0 ne0 rest2 hf
              cases h
              obtain ⟨ha, hu, hm2⟩ := ih _ _ _ _ hf
              have hsr := matchStringRest_append hs
              refine ⟨?_, ?_, hm2⟩
              · rw [hsr, ha]
                simp [List.append_assoc]
              · have hself := matchStringRest_self hs
                have := PrefixUnits.lit s p0 hself hu
                simpa [List.append_assoc] using this
            · cases h
          · cases h
        · rename_i hq
          split at h
          · rename_i p0 ne0 r0 hf
            cases h
            obtain ⟨ha, hu, hm2⟩ := ih _ _ _ _ hf
            refine ⟨?_, PrefixUnits.chr c p0 hq hu, hm2⟩
            rw [ha]
            simp [List.append_assoc]
          · cases h

theorem findMatch_spec {l p : List Char} {ne : NumExp} {rest : List Char}
    (h : findMatch l = some (p, ne, rest)) :
    l = p ++ numExpText ne ++ rest ∧ PrefixUnits p ∧
    matchNumExp (numExpText ne ++ rest) = some (ne, rest) :=
  findMatchF_spec (l.length + 1) l p ne rest h

theorem findMatch_rest_lt {l p : List Char} {ne : NumExp} {rest : List Char}
    (h : findMatch l = some (p, ne, rest)) : rest.length + 3 ≤ l.length := by
  obtain ⟨ha, -, hm⟩ := findMatch_spec h
  have := matchNumExp_rest_lt hm
  rw [ha]
  simp only [List.length_append] at this ⊢
  omega

theorem scanFromF_spec : ∀ (fuel : Nat) (l : List Char),
    l = recombine (scanFromF fuel l).1 numExpText (scanFromF fuel l).2 ∧
    ∀ m ∈ (scanFromF fuel l).1, PrefixUnits m.1 := by
  intro fuel
  induction fuel with
  | zero =>
    intro l
    simp [scanFromF, recombine]
  | succ fuel ih =>
    intro l
    simp only [scanFromF]
    rw [scanStep.eq_def]
    split
    · simp [recombine]
    · rename_i p ne rest hf
      obtain ⟨ha, hu, -⟩ := findMatch_spec hf
      obtain ⟨ihr, ihu⟩ := ih rest
      constructor
      · simp only [recombine, List.foldr_cons]
        rw [ha]
        simp only [recombine] at ihr
        rw [← ihr]
      · intro m hm
        simp only [List.mem_cons] at hm
        rcases hm with rfl | hm
        · exact hu
        · exact ihu m hm

theorem scanFrom_spec (l : List Char) :
    l = recombine (scanFrom l).1 numExpText (scanFrom l).2 ∧
    ∀ m ∈ (scanFrom l).1, PrefixUnits m.1 :=
  scanFromF_spec (l.length + 1) l

theorem scanFromF_suffix : ∀ (fuel : Nat) (l : List Char), l.length < fuel →
    findMatch (scanFromF fuel l).2 = none := by
  intro fuel
  induction fuel with
  | zero =>
    intro l hl
    omega
  | succ fuel ih =>
    intro l hl
    simp only [scanFromF]
    rw [scanStep.eq_def]
    split
    · rename_i hf
      simpa using hf
    · rename_i p ne rest hf
      have hlt := findMatch_rest_lt hf
      exact ih rest (by omega)

/-- The scan runs to completion: after the last reported match the sticky
pattern fails on the remaining suffix. -/
theorem scanFrom_suffix (l : List Char) : findMatch (scanFrom l).2 = none :=
  scanFromF_suffix (l.length + 1) l (by omega)

theorem scanFromF_matches : ∀ (fuel : Nat) (l : List Char),
    ∀ m ∈ (scanFromF fuel l).1, ∃ lm restm,
      matchNumExp lm = some (m.2, restm) := by
  intro fuel
  induction fuel with
  | zero =>
    intro l m hm
    simp [scanFromF] at hm
  | succ fuel ih =>
    intro l m hm
    simp only [scanFromF] at hm
    rw [scanStep.eq_def] at hm
    split at hm
    · simp at hm
    · rename_i p ne rest hf
      simp only [List.mem_cons] at hm
      rcases hm with rfl | hm
      · obtain ⟨-, -, hm2⟩ := findMatch_spec hf
        exact ⟨_, _, hm2⟩
      · exact ih rest m hm

/-- Every number the scan reports was produced by the number matcher (and so
satisfies its structural guarantees). -/
theorem scanFrom_matches (l : List Char) :
    ∀ m ∈ (scanFrom l).1, ∃ lm restm, matchNumExp lm = some (m.2, restm) :=
  scanFromF_matches (l.length + 1) l

/-!
Replacement-loop lemmas.
-/

theorem replaceLoop_ok (g : NumExp → List Char) :
    ∀ (ms : List (List Char × NumExp)) (suf : List Char),
    replaceLoop (fun pre ne => Except.ok (pre ++ g ne)) ms suf
      = Except.ok (recombine ms g suf) := by
  intro ms
  induction ms with
  | nil =>
    intro suf
    simp [replaceLoop, recombine]
  | cons m ms ih =>
    intro suf
    obtain ⟨p, ne⟩ := m
    simp [replaceLoop, ih, recombine, List.append_assoc]

theorem replaceLoop_ok_shape {repl : List Char → NumExp → Except JRErr (List Char)}
    {g : NumExp → List Char}
    (hshape : ∀ pre ne r, repl pre ne = Except.ok r → r = pre ++ g ne) :
    ∀ (ms : List (List Char × NumExp)) (suf out : List Char),
    replaceLoop repl ms suf = Except.ok out → out = recombine ms g suf := by
  intro ms
  induction ms with
  | nil =>
    intro suf out h
    simp only [replaceLoop, Except.ok.injEq] at h
    simp [← h, recombine]
  | cons m ms ih =>
    intro suf out h
    obtain ⟨p, ne⟩ := m
    rw [replaceLoop] at h
    split at h
    · cases h
    · rename_i r hr
      split at h
      · cases h
      · rename_i rest2 hrest
        cases h
        rw [recombine, List.foldr_cons, hshape p ne r hr, ih suf rest2 hrest]
        simp [recombine, List.append_assoc]

theorem replaceLoop_default_error :
    ∀ (ms : List (List Char × NumExp)) (suf : List Char) (e : JRErr),
    replaceLoop exponentialToFixedReplacer ms suf = Except.error e ↔
      e = JRErr.rangeError ∧ ∃ m ∈ ms,
        1000 < expVal m.2.expText ∨ expVal m.2.expText < -1000 := by
  intro ms
  induction ms with
  | nil =>
    intro suf e
    constructor
    · intro h
      rw [replaceLoop] at h
      exact Except.noConfusion h
    · rintro ⟨rfl, m, hm, -⟩
      exact absurd hm (List.not_mem_nil m)
  | cons m ms ih =>
    intro suf e
    obtain ⟨p, ne⟩ := m
    rw [replaceLoop]
    constructor
    · intro h
      split at h
      · rename_i r hr
        rw [exponentialToFixedReplacer] at hr
        split at hr
        · rename_i hrange
          cases hr
          cases h
          exact ⟨rfl, (p, ne), List.mem_cons_self (p, ne) ms, hrange⟩
        · cases hr
      · rename_i r hr
        split at h
        · rename_i e2 he2
          cases h
          obtain ⟨he, m2, hm2, hr2⟩ := (ih suf e).mp he2
          exact ⟨he, m2, List.mem_cons_of_mem _ hm2, hr2⟩
        · cases h
    · rintro ⟨rfl, m2, hm2, hr2⟩
      simp only [List.mem_cons] at hm2
      rcases hm2 with rfl | hm2
      · have hthis : exponentialToFixedReplacer p ne = Except.error JRErr.rangeError := by
          rw [exponentialToFixedReplacer]
          split
          · rfl
          · rename_i hno
            exact absurd hr2 hno
        rw [hthis]
      · have hrec : replaceLoop exponentialToFixedReplacer ms suf
            = Except.error JRErr.rangeError :=
          (ih suf JRErr.rangeError).mpr ⟨rfl, m2, hm2, hr2⟩
        split
        · rename_i r hr
          have hr2 : r = JRErr.rangeError := by
            rw [exponentialToFixedReplacer] at hr
            split at hr
            · cases hr
              rfl
            · cases hr
          rw [hr2]
        · rw [hrec]

/-- The value the default replacer splices in for one match (after its
prefix). -/
def defaultFixed (ne : NumExp) : List Char :=
  exponentialPartsToFixed ne.signPart ne.intPart (ne.fracPart.getD []) (expVal ne.expText)

theorem jsonReplace_custom_eq (s : List Char) (f : List Char → List Char) :
    jsonReplaceExponentials (JSVal.str s) (JSVal.fn f)
      = Except.ok (recombine (scanFrom s).1 (fun ne => f (numExpText ne)) (scanFrom s).2) := by
  rw [jsonReplaceExponentials]
  exact replaceLoop_ok _ _ _

theorem jsonReplace_default_error_iff (s : List Char) (e : JRErr) :
    jsonReplaceExponentials (JSVal.str s) JSVal.undefined = Except.error e ↔
      e = JRErr.rangeError ∧ ∃ m ∈ (scanFrom s).1,
        1000 < expVal m.2.expText ∨ expVal m.2.expText < -1000 := by
  rw [jsonReplaceExponentials]
  exact replaceLoop_default_error _ _ _

theorem exponentialToFixedReplacer_ok_shape :
    ∀ (pre : List Char) (ne : NumExp) (r : List Char),
    exponentialToFixedReplacer pre ne = Except.ok r → r = pre ++ defaultFixed ne := by
  intro pre ne r h
  rw [exponentialToFixedReplacer] at h
  split at h
  · cases h
  · cases h
    rfl

theorem jsonReplace_default_ok_shape {s out : List Char}
    (h : jsonReplaceExponentials (JSVal.str s) JSVal.undefined = Except.ok out) :
    out = recombine (scanFrom s).1 defaultFixed (scanFrom s).2 := by
  rw [jsonReplaceExponentials] at h
  exact replaceLoop_ok_shape exponentialToFixedReplacer_ok_shape _ _ _ h

theorem scanFrom_eq_nil {s : List Char} (h : findMatch s = none) :
    scanFrom s = ([], s) := by
  rw [scanFrom]
  simp [scanFromF, scanStep, h]

theorem replaceAllStickyFrom_zero (s : List Char)
    (repl : List Char → NumExp → Except JRErr (List Char)) :
    (replaceAllStickyFrom { lastIndex := 0 } s repl).1
      = replaceLoop repl (scanFrom s).1 (scanFrom s).2 := by
  rw [replaceAllStickyFrom]
  simp only [List.drop_zero, List.take_zero]
  cases hres : replaceLoop repl (scanFrom s).1 (scanFrom s).2 with
  | error e => simp [hres]
  | ok out => simp [hres]

/-- Claim C2: for every input string, every character that is not part of a
matched exponential-number token is reproduced verbatim and in order in the
output, on both paths: the scan decomposes the input into prefixes, matched
tokens and a trailing suffix; every prefix is a sequence of units each of
which is a complete well-formed JSON string literal (escapes honored) or a
single non-quote character — so an exponential-looking substring inside a
string literal is never matched, altered, or passed to a replacer; the
custom-replacer output keeps exactly the prefixes and the suffix around the
replacements; and whenever the default conversion succeeds its output keeps
exactly the same prefixes and suffix around the fixed-point renderings. -/
theorem claim_C2 (s : List Char) :
    s = recombine (scanFrom s).1 numExpText (scanFrom s).2 ∧
    (∀ m ∈ (scanFrom s).1, PrefixUnits m.1) ∧
    (∀ f : List Char → List Char,
      jsonReplaceExponentials (JSVal.str s) (JSVal.fn f)
        = Except.ok (recombine (scanFrom s).1 (fun ne => f (numExpText ne)) (scanFrom s).2)) ∧
    ∀ out, jsonReplaceExponentials (JSVal.str s) JSVal.undefined = Except.ok out →
      out = recombine (scanFrom s).1 defaultFixed (scanFrom s).2 :=
  ⟨(scanFrom_spec s).1, (scanFrom_spec s).2, fun f => jsonReplace_custom_eq s f,
   fun _ h => jsonReplace_default_ok_shape h⟩

/-- Witness for C2 at the concrete input `"a"1e2`: the scanned prefix
`"a"` is a complete string-literal unit, and the default-path output
`"a"100` is the recombination of that prefix with the fixed-point
rendering. -/
theorem claim_C2_witness :
    PrefixUnits ['"', 'a', '"'] ∧
    ['"', 'a', '"', '1', '0', '0']
      = recombine (scanFrom ['"', 'a', '"', '1', 'e', '2']).1 defaultFixed
          (scanFrom ['"', 'a', '"', '1', 'e', '2']).2 :=
  ⟨(claim_C2 ['"', 'a', '"', '1', 'e', '2']).2.1
    (['"', 'a', '"'],
     { signPart := [], intPart := ['1'], fracPart := none, eChar := 'e', expText := ['2'] })
    (by decide),
   (claim_C2 ['"', 'a', '"', '1', 'e', '2']).2.2.2 ['"', 'a', '"', '1', '0', '0'] rfl⟩

/-- Claim C3: with no replacer, the call fails with `RangeError` exactly when
some matched exponent exceeds 1000 or is below -1000 (so ±1000 still
converts); any error on this path is that `RangeError`, and the custom-
replacer path never fails at all. -/
theorem claim_C3 (s : List Char) :
    (jsonReplaceExponentials (JSVal.str s) JSVal.undefined = Except.error JRErr.rangeError ↔
      ∃ m ∈ (scanFrom s).1, 1000 < expVal m.2.expText ∨ expVal m.2.expText < -1000) ∧
    (∀ e, jsonReplaceExponentials (JSVal.str s) JSVal.undefined = Except.error e →
      e = JRErr.rangeError) ∧
    (∀ f : List Char → List Char, ∀ e,
      jsonReplaceExponentials (JSVal.str s) (JSVal.fn f) ≠ Except.error e) := by
  refine ⟨?_, ?_, ?_⟩
  · rw [jsonReplace_default_error_iff]
    exact and_iff_right rfl
  · intro e he
    exact ((jsonReplace_default_error_iff s e).mp he).1
  · intro f e h
    rw [jsonReplace_custom_eq] at h
    exact Except.noConfusion h

/-- Witness for C3 at the concrete input `1e1001`: the exponent 1001 exceeds
the bound, so the default path fails with the range error. -/
theorem claim_C3_witness :
    jsonReplaceExponentials (JSVal.str ['1', 'e', '1', '0', '0', '1']) JSVal.undefined
      = Except.error JRErr.rangeError :=
  (claim_C3 ['1', 'e', '1', '0', '0', '1']).1.mpr (by decide)

/-- Claim C4: a supplied replacer is applied once per matched number, in
left-to-right order, to the exact matched text, its result is spliced in
verbatim, and the call always succeeds — no exponent-magnitude limit exists
on this path. -/
theorem claim_C4 (s : List Char) (f : List Char → List Char) :
    jsonReplaceExponentials (JSVal.str s) (JSVal.fn f)
      = Except.ok (recombine (scanFrom s).1 (fun ne => f (numExpText ne)) (scanFrom s).2) :=
  jsonReplace_custom_eq s f

/-- Claim C6: when the scanner finds no exponential-notation number outside
of string literals, the input is returned unchanged on both paths, and the
output does not depend on the replacer (it is never invoked). -/
theorem claim_C6 (s : List Char) (h : findMatch s = none) :
    (∀ f : List Char → List Char,
      jsonReplaceExponentials (JSVal.str s) (JSVal.fn f) = Except.ok s) ∧
    jsonReplaceExponentials (JSVal.str s) JSVal.undefined = Except.ok s := by
  have hs := scanFrom_eq_nil h
  constructor
  · intro f
    rw [jsonReplace_custom_eq, hs]
    rfl
  · rw [jsonReplaceExponentials, hs]
    rfl

/-- Witness for C6 at the concrete input `"1e2"` (an exponential-looking
substring inside a string literal): output equals input on both paths. -/
theorem claim_C6_witness :
    jsonReplaceExponentials (JSVal.str ['"', '1', 'e', '2', '"']) JSVal.undefined
      = Except.ok ['"', '1', 'e', '2', '"'] ∧
    jsonReplaceExponentials (JSVal.str ['"', '1', 'e', '2', '"']) (JSVal.fn id)
      = Except.ok ['"', '1', 'e', '2', '"'] :=
  ⟨(claim_C6 _ (by decide)).2, (claim_C6 _ (by decide)).1 id⟩

/-- Claim C7: a non-string `json`, or a supplied `replacer` that is neither
`undefined` nor a function, makes the call fail with the type error, for
every such argument pair — before any scanning or replacement is reflected
in the result. -/
theorem claim_C7 (json replacer : JSVal)
    (h : json.isStringV = false ∨
      (replacer.isUndefinedV = false ∧ replacer.isFunctionV = false)) :
    jsonReplaceExponentials json replacer = Except.error JRErr.typeError := by
  cases json with
  | str s =>
    cases replacer with
    | undefined => simp [JSVal.isStringV, JSVal.isUndefinedV] at h
    | fn f => simp [JSVal.isStringV, JSVal.isFunctionV] at h
    | str s2 => rfl
    | other => rfl
  | fn f => rfl
  | undefined => rfl
  | other => rfl

/-- Witness for C7 at a concrete non-string argument. -/
theorem claim_C7_witness :
    JSVal.isStringV JSVal.other = false ∧
    jsonReplaceExponentials JSVal.other JSVal.undefined = Except.error JRErr.typeError :=
  ⟨rfl, claim_C7 JSVal.other JSVal.undefined (Or.inl rfl)⟩

/-- Claim C9: the function is deterministic and stateless across calls
despite the shared compiled pattern: whatever cursor state a previous call
left on the shared pattern object, the result is the same (the cursor is
rewound before the scan), and it agrees with the stateless description. -/
theorem claim_C9 (st1 st2 : RegExpState) (json replacer : JSVal) :
    (jsonReplaceExponentialsSt st1 json replacer).1
      = (jsonReplaceExponentialsSt st2 json replacer).1 ∧
    (jsonReplaceExponentialsSt st1 json replacer).1
      = jsonReplaceExponentials json replacer := by
  cases json with
  | str s =>
    cases replacer with
    | undefined =>
      refine ⟨rfl, ?_⟩
      rw [jsonReplaceExponentialsSt, jsonReplaceExponentials]
      exact replaceAllStickyFrom_zero s _
    | fn f =>
      refine ⟨rfl, ?_⟩
      rw [jsonReplaceExponentialsSt, jsonReplaceExponentials]
      exact replaceAllStickyFrom_zero s _
    | str s2 => exact ⟨rfl, rfl⟩
    | other => exact ⟨rfl, rfl⟩
  | fn f => exact ⟨rfl, rfl⟩
  | undefined => exact ⟨rfl, rfl⟩
  | other => exact ⟨rfl, rfl⟩

/-!
Shape analysis of the fixed-point converter output.
-/

theorem stripLeadingZeros_cases (u : List Char) :
    stripLeadingZeros u = u ∨
    stripLeadingZeros u = u.dropWhile (fun c => c = '0') ∨
    stripLeadingZeros u = '0' :: u.dropWhile (fun c => c = '0') := by
  rw [stripLeadingZeros]
  split
  · exact Or.inl rfl
  · split
    · split
      · rename_i ht hd
        rw [ht]
        exact Or.inr (Or.inl rfl)
      · rename_i ht hd
        rw [ht]
        exact Or.inr (Or.inr rfl)
    · rename_i ht
      rw [ht]
      exact Or.inr (Or.inr rfl)

theorem dropWhile_suffix (p : Char → Bool) (u : List Char) :
    u.dropWhile p <:+ u :=
  ⟨u.takeWhile p, List.takeWhile_append_dropWhile p u⟩

theorem stripLeadingZeros_sub (u : List Char) {c : Char}
    (hc : c ∈ stripLeadingZeros u) : c ∈ u ∨ c = '0' := by
  rcases stripLeadingZeros_cases u with h | h | h
  · rw [h] at hc
    exact Or.inl hc
  · rw [h] at hc
    exact Or.inl ((dropWhile_suffix _ u).sublist.subset hc)
  · rw [h] at hc
    rcases List.mem_cons.mp hc with rfl | hc
    · exact Or.inr rfl
    · exact Or.inl ((dropWhile_suffix _ u).sublist.subset hc)

theorem stripLeadingZeros_count_dot (u : List Char) :
    (stripLeadingZeros u).count '.' ≤ u.count '.' := by
  rcases stripLeadingZeros_cases u with h | h | h
  · rw [h]
  · rw [h]
    exact (dropWhile_suffix _ u).sublist.count_le '.'
  · rw [h, List.count_cons_of_ne (by decide)]
    exact (dropWhile_suffix _ u).sublist.count_le '.'

theorem stripLeadingZeros_ne_nil {u : List Char} (hu : u ≠ []) :
    stripLeadingZeros u ≠ [] := by
  rw [stripLeadingZeros]
  split
  · exact hu
  · split
    · split
      · rename_i ht hd
        rw [ht]
        simp
      · simp
    · simp

theorem count_dot_eq_zero_of_digits {l : List Char}
    (h : ∀ c ∈ l, isDigit c = true) : l.count '.' = 0 := by
  rw [List.count_eq_zero]
  intro hc
  have := h '.' hc
  simp [isDigit] at this

theorem head_dropWhile_not (p : Char → Bool) :
    ∀ (l : List Char) {c : Char}, (l.dropWhile p).head? = some c → p c = false := by
  intro l
  induction l with
  | nil =>
    intro c h
    simp [List.dropWhile] at h
  | cons a l ih =>
    intro c h
    rw [List.dropWhile_cons] at h
    split at h
    · exact ih h
    · rename_i hpa
      simp only [List.head?_cons, Option.some.injEq] at h
      subst h
      exact Bool.not_eq_true _ ▸ (by simpa using hpa)

theorem exponentialPartsToFixed_shape (sign int frac : List Char) (exp : Int)
    (hint : int ≠ []) (hid : ∀ c ∈ int, isDigit c = true)
    (hfd : ∀ c ∈ frac, isDigit c = true) :
    ∃ rest, exponentialPartsToFixed sign int frac exp = sign ++ rest ∧ rest ≠ [] ∧
      (∀ c ∈ rest, isDigit c = true ∨ c = '.') ∧ rest.count '.' ≤ 1 := by
  rw [exponentialPartsToFixed]
  split
  · dsimp only
    split
    · rename_i hfl
      refine ⟨_, rfl, ?_, ?_, ?_⟩
      · apply stripLeadingZeros_ne_nil
        simp [hint]
      · intro c hc
        rcases stripLeadingZeros_sub _ hc with hcu | rfl
        · left
          simp only [List.mem_append, List.mem_replicate] at hcu
          rcases hcu with (hcu | hcu) | hcu
          · exact hid c hcu
          · exact hfd c hcu
          · rw [hcu.2]
            decide
        · left
          decide
      · refine le_trans (stripLeadingZeros_count_dot _) ?_
        have hz : (int ++ frac ++ List.replicate (exp.toNat - frac.length) '0').count '.' = 0 := by
          apply count_dot_eq_zero_of_digits
          intro c hc
          simp only [List.mem_append, List.mem_replicate] at hc
          rcases hc with (hc | hc) | hc
          · exact hid c hc
          · exact hfd c hc
          · rw [hc.2]
            decide
        omega
    · rename_i hfl
      refine ⟨_, rfl, ?_, ?_, ?_⟩
      · apply stripLeadingZeros_ne_nil
        simp [hint]
      · intro c hc
        rcases stripLeadingZeros_sub _ hc with hcu | rfl
        · simp only [List.mem_append, List.mem_cons] at hcu
          rcases hcu with (hcu | hcu) | rfl | hcu
          · exact Or.inl (hid c hcu)
          · exact Or.inl (hfd c ((List.take_sublist _ _).subset hcu))
          · exact Or.inr rfl
          · exact Or.inl (hfd c ((List.drop_sublist _ _).subset hcu))
        · left
          decide
      · refine le_trans (stripLeadingZeros_count_dot _) ?_
        have h1 : int.count '.' = 0 := count_dot_eq_zero_of_digits hid
        have h2 : (frac.take exp.toNat).count '.' = 0 :=
          count_dot_eq_zero_of_digits fun c hc => hfd c ((List.take_sublist _ _).subset hc)
        have h3 : (frac.drop exp.toNat).count '.' = 0 :=
          count_dot_eq_zero_of_digits fun c hc => hfd c ((List.drop_sublist _ _).subset hc)
        simp [List.count_append, List.count_cons, h1, h2, h3]
  · dsimp only
    split
    · rename_i hlen
      refine ⟨int.take (-exp).toNat ++ '.' :: (int.drop (-exp).toNat ++ frac), by simp, ?_, ?_, ?_⟩
      · simp
      · intro c hc
        simp only [List.mem_append, List.mem_cons] at hc
        rcases hc with hc | rfl | hc | hc
        · exact Or.inl (hid c ((List.take_sublist _ _).subset hc))
        · exact Or.inr rfl
        · exact Or.inl (hid c ((List.drop_sublist _ _).subset hc))
        · exact Or.inl (hfd c hc)
      · have h1 : (int.take (-exp).toNat).count '.' = 0 :=
          count_dot_eq_zero_of_digits fun c hc => hid c ((List.take_sublist _ _).subset hc)
        have h2 : (int.drop (-exp).toNat).count '.' = 0 :=
          count_dot_eq_zero_of_digits fun c hc => hid c ((List.drop_sublist _ _).subset hc)
        have h3 : frac.count '.' = 0 := count_dot_eq_zero_of_digits hfd
        simp [List.count_append, List.count_cons, h1, h2, h3]
    · rename_i hlen
      refine ⟨'0' :: '.' :: (List.replicate ((-exp).toNat - int.length) '0' ++ (int ++ frac)),
        by simp, by simp, ?_, ?_⟩
      · intro c hc
        simp only [List.mem_cons, List.mem_append, List.mem_replicate] at hc
        rcases hc with rfl | rfl | hc | hc | hc
        · exact Or.inl (by decide)
        · exact Or.inr rfl
        · rw [hc.2]
          exact Or.inl (by decide)
        · exact Or.inl (hid c hc)
        · exact Or.inl (hfd c hc)
      · have h1 : int.count '.' = 0 := count_dot_eq_zero_of_digits hid
        have h3 : frac.count '.' = 0 := count_dot_eq_zero_of_digits hfd
        have h4 : (List.replicate ((-exp).toNat - int.length) '0').count '.' = 0 :=
          count_dot_eq_zero_of_digits fun c hc => by
            rw [(List.mem_replicate.mp hc).2]
            decide
        simp [List.count_append, List.count_cons, h1, h3, h4]

theorem digit_ne_dot {c : Char} (h : isDigit c = true) : c ≠ '.' := by
  intro hc
  subst hc
  exact absurd h (by decide)

theorem digit_ne_dash {c : Char} (h : isDigit c = true) : c ≠ '-' := by
  intro hc
  subst hc
  exact absurd h (by decide)

theorem dropSignChar_of_head_ne {l : List Char} (h : l.head? ≠ some '-') :
    dropSignChar l = l := by
  rw [dropSignChar.eq_def]
  split
  · exact absurd rfl h
  · rfl

theorem stripLeadingZeros_intPortion {u : List Char} {d : Char}
    (hchars : ∀ c ∈ u, isDigit c = true ∨ c = '.')
    (hd : u.head? = some d) (hdig : isDigit d = true) :
    ((stripLeadingZeros u).takeWhile notDot) ≠ [] ∧
    (((stripLeadingZeros u).takeWhile notDot) = ['0'] ∨
      ((stripLeadingZeros u).takeWhile notDot).head? ≠ some '0') ∧
    (stripLeadingZeros u).head? ≠ some '-' := by
  obtain ⟨tail, hu⟩ : ∃ tail, u = d :: tail := by
    cases u with
    | nil => simp at hd
    | cons a l =>
      simp only [List.head?_cons, Option.some.injEq] at hd
      exact ⟨l, by rw [hd]⟩
  subst hu
  rw [stripLeadingZeros]
  split
  · rename_i hz
    have hd0 : d ≠ '0' := by
      intro hc
      subst hc
      simp [List.takeWhile_cons] at hz
    have hddot : d ≠ '.' := digit_ne_dot hdig
    rw [List.takeWhile_cons, if_pos (by simp [notDot, hddot])]
    refine ⟨by simp, Or.inr ?_, by simp [digit_ne_dash hdig]⟩
    simp [hd0]
  · rename_i hz
    split
    · rename_i c tt ht
      have hc0 : c ≠ '0' := by
        have h5 := head_dropWhile_not (fun c => decide (c = '0')) (d :: tail)
          (c := c) (by rw [ht]; rfl)
        simpa using h5
      have hcu : c ∈ (d :: tail) := (dropWhile_suffix _ _).sublist.subset (by rw [ht]; simp)
      split
      · rename_i hcd
        have hcdot : c ≠ '.' := digit_ne_dot hcd
        rw [ht, List.takeWhile_cons, if_pos (by simp [notDot, hcdot])]
        refine ⟨by simp, Or.inr ?_, by simp [digit_ne_dash hcd]⟩
        simp [hc0]
      · rename_i hcd
        have hcdot : c = '.' := by
          rcases hchars c hcu with h | h
          · exact absurd h hcd
          · exact h
        subst hcdot
        rw [ht, List.takeWhile_cons, if_pos (by decide),
          List.takeWhile_cons, if_neg (by decide)]
        exact ⟨by simp, Or.inl rfl, by simp⟩
    · rename_i hte
      rw [hte]
      exact ⟨by decide, Or.inl (by decide), by decide⟩

theorem intPortionStripped_append {sign v : List Char}
    (hsign : sign = [] ∨ sign = ['-'])
    (hip : (v.takeWhile notDot) ≠ [])
    (hip2 : (v.takeWhile notDot) = ['0'] ∨ (v.takeWhile notDot).head? ≠ some '0')
    (hv : v.head? ≠ some '-') :
    intPortionStripped (sign ++ v) = true := by
  have hds : dropSignChar (sign ++ v) = v := by
    rcases hsign with rfl | rfl
    · rw [List.nil_append]
      exact dropSignChar_of_head_ne hv
    · rfl
  rw [intPortionStripped]
  rw [hds]
  simp only [Bool.and_eq_true, Bool.or_eq_true, Bool.not_eq_true', decide_eq_true_eq]
  constructor
  · simpa [List.isEmpty_iff] using hip
  · rcases hip2 with h2 | h2
    · exact Or.inl h2
    · exact Or.inr h2

theorem exponentialPartsToFixed_stripped (sign int frac : List Char) (exp : Int)
    (h0 : 0 ≤ exp) (hsign : sign = [] ∨ sign = ['-'])
    (hint : int ≠ []) (hid : ∀ c ∈ int, isDigit c = true)
    (hfd : ∀ c ∈ frac, isDigit c = true) :
    intPortionStripped (exponentialPartsToFixed sign int frac exp) = true := by
  obtain ⟨d, tl, rfl⟩ : ∃ d tl, int = d :: tl := by
    cases int with
    | nil => exact absurd rfl hint
    | cons d tl => exact ⟨d, tl, rfl⟩
  have hddig : isDigit d = true := hid d (by simp)
  rw [exponentialPartsToFixed, if_pos h0]
  dsimp only
  split
  · rename_i hfl
    have hs := stripLeadingZeros_intPortion
      (u := (d :: tl) ++ frac ++ List.replicate (exp.toNat - frac.length) '0') (d := d)
      ?_ (by simp) hddig
    · exact intPortionStripped_append hsign hs.1 hs.2.1 hs.2.2
    · intro c hc
      simp only [List.mem_append, List.mem_replicate, List.mem_cons] at hc
      rcases hc with (hc | hc) | hc
      · exact Or.inl (hid c (List.mem_cons.mpr hc))
      · exact Or.inl (hfd c hc)
      · rw [hc.2]
        exact Or.inl (by decide)
  · rename_i hfl
    have hs := stripLeadingZeros_intPortion
      (u := (d :: tl) ++ List.take exp.toNat frac ++ '.' :: List.drop exp.toNat frac) (d := d)
      ?_ (by simp) hddig
    · exact intPortionStripped_append hsign hs.1 hs.2.1 hs.2.2
    · intro c hc
      simp only [List.mem_append, List.mem_cons] at hc
      rcases hc with (hc | hc) | rfl | hc
      · exact Or.inl (hid c (List.mem_cons.mpr hc))
      · exact Or.inl (hfd c ((List.take_sublist _ _).subset hc))
      · exact Or.inr rfl
      · exact Or.inl (hfd c ((List.drop_sublist _ _).subset hc))

/-- Counterexample to claim C5 as stated: for the matched number `001e-2`
(exponent negative), the default conversion yields `00.1`, whose integer
portion `00` keeps a redundant leading zero. -/
theorem claim_C5_counterexample :
    jsonReplaceExponentials (JSVal.str ['0', '0', '1', 'e', '-', '2']) JSVal.undefined
      = Except.ok ['0', '0', '.', '1'] ∧
    intPortionStripped ['0', '0', '.', '1'] = false :=
  ⟨rfl, rfl⟩

/-- Claim C5 as amended: for every matched exponential number whose exponent
is non-negative, the default converter's output has redundant leading zeros
removed from its integer part (a single `0` is kept when the integer part
would otherwise be empty); for negative exponents the integer digits are
copied without stripping. -/
theorem claim_C5 (s : List Char) :
    ∀ m ∈ (scanFrom s).1, 0 ≤ expVal m.2.expText →
    intPortionStripped (defaultFixed m.2) = true := by
  intro m hm h0
  obtain ⟨lm, restm, hmm⟩ := scanFrom_matches s m hm
  obtain ⟨hsign, hint, hid, hfd, -, -⟩ := matchNumExp_parts hmm
  exact exponentialPartsToFixed_stripped m.2.signPart m.2.intPart (m.2.fracPart.getD [])
    (expVal m.2.expText) h0 hsign hint hid hfd

/-- Witness for the amended C5 at the concrete input `007e1`: the conversion
gives `70`, stripped of its leading zeros. -/
theorem claim_C5_witness :
    intPortionStripped (defaultFixed
      { signPart := [], intPart := ['0', '0', '7'], fracPart := none,
        eChar := 'e', expText := ['1'] }) = true :=
  claim_C5 ['0', '0', '7', 'e', '1']
    ([], { signPart := [], intPart := ['0', '0', '7'], fracPart := none,
           eChar := 'e', expText := ['1'] })
    (by decide) (by decide)

/-- Claim C10: every replacement the default path accepts consists of the
sign part verbatim followed by a non-empty sequence of digits with at most
one decimal point and no `e`/`E` exponent marker — a replacement is never
itself in exponential notation. -/
theorem claim_C10 (s : List Char) :
    ∀ m ∈ (scanFrom s).1, -1000 ≤ expVal m.2.expText → expVal m.2.expText ≤ 1000 →
    ∃ rest, defaultFixed m.2 = m.2.signPart ++ rest ∧ rest ≠ [] ∧
      (∀ c ∈ rest, isDigit c = true ∨ c = '.') ∧ rest.count '.' ≤ 1 ∧
      'e' ∉ rest ∧ 'E' ∉ rest := by
  intro m hm hlo hhi
  obtain ⟨lm, restm, hmm⟩ := scanFrom_matches s m hm
  obtain ⟨-, hint, hid, hfd, -, -⟩ := matchNumExp_parts hmm
  obtain ⟨rest, heq, hne, hchars, hcount⟩ :=
    exponentialPartsToFixed_shape m.2.signPart m.2.intPart (m.2.fracPart.getD [])
      (expVal m.2.expText) hint hid hfd
  refine ⟨rest, heq, hne, hchars, hcount, ?_, ?_⟩
  · intro he
    rcases hchars 'e' he with h | h
    · exact absurd h (by decide)
    · exact absurd h (by decide)
  · intro he
    rcases hchars 'E' he with h | h
    · exact absurd h (by decide)
    · exact absurd h (by decide)

/-- Witness for C10 at the concrete input `1e2`. -/
theorem claim_C10_witness :
    ∃ rest, defaultFixed
        { signPart := [], intPart := ['1'], fracPart := none,
          eChar := 'e', expText := ['2'] }
      = [] ++ rest ∧ rest ≠ [] ∧
      (∀ c ∈ rest, isDigit c = true ∨ c = '.') ∧ rest.count '.' ≤ 1 ∧
      'e' ∉ rest ∧ 'E' ∉ rest :=
  claim_C10 ['1', 'e', '2']
    ([], { signPart := [], intPart := ['1'], fracPart := none,
           eChar := 'e', expText := ['2'] })
    (by decide) (by decide) (by decide)

/-- Claim C1 (code evidence): the input `100e-1` is one matched exponential
number with exponent -1 (magnitude well under 1000), yet the default
conversion returns `1.00`, which denotes the rational 1, while the original
text denotes 10 — the negative-exponent branch splits the integer digits at
position `|exponent|` from the left (`intPart.slice(0, exponent)`) instead
of `length - |exponent|`, so the produced fixed-point string does not denote
the same value and the round-trip property fails. -/
theorem claim_C1 :
    scanFrom ['1', '0', '0', 'e', '-', '1']
      = ([([], ⟨[], ['1', '0', '0'], none, 'e', ['-', '1']⟩)], []) ∧
    jsonReplaceExponentials (JSVal.str ['1', '0', '0', 'e', '-', '1']) JSVal.undefined
      = Except.ok ['1', '.', '0', '0'] ∧
    numExpValue ⟨[], ['1', '0', '0'], none, 'e', ['-', '1']⟩ = 10 ∧
    fixedValue ['1', '.', '0', '0'] = 1 ∧
    (10 : ℚ) ≠ 1 := by
  refine ⟨by decide, rfl, ?_, ?_, by norm_num⟩
  · have h : numExpValue ⟨[], ['1', '0', '0'], none, 'e', ['-', '1']⟩
        = (1 : ℚ) * (((100 : ℕ) : ℚ) + ((0 : ℕ) : ℚ) / 10 ^ (0 : ℕ)) * (10 : ℚ) ^ (-1 : ℤ) :=
      rfl
    rw [h]
    norm_num
  · have h : fixedValue ['1', '.', '0', '0']
        = (1 : ℚ) * (((1 : ℕ) : ℚ) + ((0 : ℕ) : ℚ) / 10 ^ (2 : ℕ)) := rfl
    rw [h]
    norm_num

/-!
Cost of the scan on a pure digit run.
-/

theorem takeWhile_digit_replicate (n : Nat) :
    List.takeWhile isDigit (List.replicate n '1') = List.replicate n '1' := by
  induction n with
  | zero => rfl
  | succ n ih => rw [List.replicate_succ, List.takeWhile_cons, if_pos (by decide), ih]

theorem dropWhile_digit_replicate (n : Nat) :
    List.dropWhile isDigit (List.replicate n '1') = [] := by
  induction n with
  | zero => rfl
  | succ n ih => rw [List.replicate_succ, List.dropWhile_cons, if_pos (by decide), ih]

theorem matchSignPart_replicate_one (n : Nat) :
    matchSignPart (List.replicate n '1') = ([], List.replicate n '1') := by
  cases n with
  | zero => rfl
  | succ n => rw [List.replicate_succ]; rfl

theorem matchNumExp_replicate_one (n : Nat) :
    matchNumExp (List.replicate n '1') = none := by
  rw [matchNumExp.eq_def]
  dsimp only
  rw [matchSignPart_replicate_one]
  dsimp only
  rw [takeWhile_digit_replicate, dropWhile_digit_replicate]
  split
  · rfl
  · rfl

theorem dropSignChar_one_cons (r : List Char) : dropSignChar ('1' :: r) = '1' :: r :=
  dropSignChar_of_head_ne (by simp)

theorem numExpAttemptSteps_replicate (n : Nat) :
    numExpAttemptSteps (List.replicate (n + 1) '1') = n + 2 := by
  rw [numExpAttemptSteps, List.replicate_succ, dropSignChar_one_cons,
    ← List.replicate_succ, takeWhile_digit_replicate, List.length_replicate]

theorem findMatchStepsStep_cons_ne (rec : List Char → Nat) (c : Char) (rest : List Char)
    (hm : matchNumExp (c :: rest) = none) (hq : ¬c = '"') :
    findMatchStepsStep rec (c :: rest) = numExpAttemptSteps (c :: rest) + rec rest := by
  rw [findMatchStepsStep.eq_def, hm]
  simp [hq]

theorem findMatchStepsF_replicate : ∀ (fuel n : Nat), n < fuel →
    2 * findMatchStepsF fuel (List.replicate n '1') = n * n + 3 * n + 2 := by
  intro fuel
  induction fuel with
  | zero =>
    intro n h
    omega
  | succ fuel ih =>
    intro n h
    simp only [findMatchStepsF]
    cases n with
    | zero =>
      rw [List.replicate_zero, findMatchStepsStep.eq_def]
      rw [show matchNumExp ([] : List Char) = none from rfl]
      show 2 * (numExpAttemptSteps [] + 0) = 0 * 0 + 3 * 0 + 2
      decide
    | succ n =>
      have hr := ih n (by omega)
      rw [List.replicate_succ, findMatchStepsStep_cons_ne _ _ _
        (by rw [← List.replicate_succ]; exact matchNumExp_replicate_one (n + 1)) (by decide),
        ← List.replicate_succ, numExpAttemptSteps_replicate]
      generalize hF : findMatchStepsF fuel (List.replicate n '1') = F at hr
      ring_nf
      ring_nf at hr
      omega


theorem findMatchSteps_replicate (n : Nat) :
    2 * findMatchSteps (List.replicate n '1') = n * n + 3 * n + 2 := by
  rw [findMatchSteps]
  exact findMatchStepsF_replicate _ n (by simp)

/-- Claim C8 (code evidence): on a run of `n` digits with no exponent marker,
the backtracking scan modelled by `findMatchSteps` performs
`(n² + 3n + 2) / 2` character-examination steps — the lazy prefix re-runs
the greedy digit scan of `numberExpPattern` at every offset of the run — so
no linear bound `c · n` holds: for every coefficient `c` some digit run costs
more.  The scan is quadratic, not amortized linear. -/
theorem claim_C8 : ∀ c : Nat, ∃ n : Nat,
    2 * findMatchSteps (List.replicate n '1') = n * n + 3 * n + 2 ∧
    c * n < findMatchSteps (List.replicate n '1') := by
  intro c
  refine ⟨2 * c + 1, findMatchSteps_replicate _, ?_⟩
  have h := findMatchSteps_replicate (2 * c + 1)
  nlinarith [h]
